import Mathlib

/-!
Verification development for chessnet.py (Ronit12/chessnet).

The source is Python 2: the integer division `/` on sample counts is floor
division, and `zip` truncates to the shorter argument.  Samples, tensors and
moves are abstracted as natural-number codes; the model's per-sample scalar
outputs are embedded as exact rationals.  numpy's float division by zero does
not raise: it produces NaN (0/0) or infinity (x/0), both invalid as
probabilities; the embedding represents such invalid entries as `none`.
-/

namespace Chessnet

/-- An `.npz` shard file: three parallel arrays (`board_tensors`,
`extra_tensors`, `target_tensors`), sample contents abstracted to `Nat`. -/
structure Npz where
  board_tensors : List Nat
  extra_tensors : List Nat
  target_tensors : List Nat
deriving Repr, DecidableEq

/-- One minibatch yielded by `generate_samples`: the slices
`board_tensors[start:end]`, `extra_tensors[start:end]`,
`target_tensors[start:end]`. -/
structure Batch where
  boards : List Nat
  extras : List Nat
  targets : List Nat
deriving Repr, DecidableEq

/-- Embeds `DataDirGenerator.__init__`: `self.n_batches = 0` followed by
`self.n_batches += len(np.load(f)['board_tensors']) / batch_size` over the
sorted shard list (Python 2 `/` on ints is floor division).  The directory is
represented by its sorted list of shard files. -/
def n_batches (files : List Npz) (batch_size : Nat) : Nat :=
  files.foldl (fun acc f => acc + f.board_tensors.length / batch_size) 0

/-- Embeds `DataDirGenerator.samples_per_epoch`: `self.batch_size * self.n_batches`. -/
def samples_per_epoch (files : List Npz) (batch_size : Nat) : Nat :=
  batch_size * n_batches files batch_size

/-- The inner loop of `generate_samples` for one shard `f`: for
`batch_idx in xrange(len(board_tensors) / batch_size)` yield the slices
`[batch_idx*batch_size : (batch_idx+1)*batch_size]` of the three arrays
(`List.drop`/`List.take` clamp exactly as Python slices do). -/
def shardBatches (f : Npz) (batch_size : Nat) : List Batch :=
  (List.range (f.board_tensors.length / batch_size)).map (fun i =>
    { boards := (f.board_tensors.drop (i * batch_size)).take batch_size
      extras := (f.extra_tensors.drop (i * batch_size)).take batch_size
      targets := (f.target_tensors.drop (i * batch_size)).take batch_size })

/-- One pass of the `for f in self.npz_files` loop of `generate_samples`:
the batches of every shard in file order, a shard's remainder dropped. -/
def epochBatches (files : List Npz) (batch_size : Nat) : List Batch :=
  files.flatMap (fun f => shardBatches f batch_size)

/-- Embeds `DataDirGenerator.generate_samples`: the `while True` generator, as the
function from `n` to the `n`-th yielded batch.  One pass of the outer loop
yields `epochBatches`; the infinite generator repeats it, so the `n`-th yield
is entry `n % length` of an epoch.  When an epoch yields nothing the
generator spins forever producing no item: `none` (with `length = 0`,
`n % 0 = n` and `get?` returns `none`). -/
def generate_samples (files : List Npz) (batch_size : Nat) (n : Nat) : Option Batch :=
  (epochBatches files batch_size).get? (n % (epochBatches files batch_size).length)

/-- Embeds `K.reshape(v, (-1, 2))`: the flat tensor regrouped into rows of two. -/
def chunkPairs : List ℚ → List (ℚ × ℚ)
  | a :: b :: rest => (a, b) :: chunkPairs rest
  | _ => []

/-- Embeds `rel_acc(y_true, y_pred)`: elementwise `y_neg = y_pred * (2*y_true - 1)`,
reshape into pairs of two, sum each pair, and take the mean of the indicator
`sum > 0` (count of true pairs over the number of pairs). -/
def rel_acc (y_true y_pred : List ℚ) : ℚ :=
  let y_neg := List.zipWith (fun t p => p * (2 * t - 1)) y_true y_pred
  let y_sum := (chunkPairs y_neg).map (fun q => q.1 + q.2)
  ((y_sum.countP (fun s => 0 < s) : ℚ)) / (y_sum.length : ℚ)

/-- A chess board as the external rules engine presents it to this code: an
opaque state on which `push` and `pop` act.  Modelling it as the stack of
pushed moves over an (implicit) base position suffices for every operation
`analyze_position` performs. -/
abbrev Board := List Nat

/-- The external collaborators `analyze_position` and `select_move` consume:
the rules engine (`legal_moves`, `push`, `pop`), the preprocessor
(`board_to_tensor`, returning the pair of a board tensor and an extra
tensor), and the model (`predict`, one scalar score per input sample; the
code's two parallel input arrays are carried zipped). -/
structure Engine where
  legal_moves : Board → List Nat
  push : Board → Nat → Board
  pop : Board → Board
  board_to_tensor : Board → Nat × Nat
  predict : List (Nat × Nat) → List ℚ

/-- The encoding loop of `analyze_position`: for each move, `board.push(move)`,
`board_to_tensor(board)`, `board.pop()`, collecting the encodings in order and
threading the mutable board state; returns the collected batch and the board
state left behind after the loop. -/
def encodeLoop (E : Engine) : Board → List Nat → List (Nat × Nat) × Board
  | b, [] => ([], b)
  | b, m :: ms =>
    let b1 := E.push b m
    let e := E.board_to_tensor b1
    let b2 := E.pop b1
    let r := encodeLoop E b2 ms
    (e :: r.1, r.2)

/-- The per-sample scores of `analyze_position`:
`self.board_score.predict([next_board_tensors, next_extra_tensors])[:, 0]` -
one `predict` call over the whole batch of successor encodings. -/
def analyzeScores (E : Engine) (b : Board) : List ℚ :=
  E.predict (encodeLoop E b (E.legal_moves b)).1

/-- Embeds `x / total` with numpy float semantics at `total = 0` abstracted: dividing
by a zero sum yields NaN (0/0) or an infinity, never a valid probability, and
raises nothing; the invalid result is `none`. -/
def safeDiv (x total : ℚ) : Option ℚ :=
  if total = 0 then none else some (x / total)

/-- Python 2 comparison key of a score entry.  Valid scores compare as
numbers.  NaN/infinity comparisons are unspecified in Python 2 sorting; the
embedding fixes an arbitrary total order placing the invalid entry below the
valid ones (claims touching invalid scores use only permutation-invariant
consequences of the sort). -/
def probKey : Option ℚ → WithBot ℚ
  | none => ⊥
  | some x => (x : WithBot ℚ)

/-- The order `sorted(..., reverse=True)` applies to the `(score, move)`
tuples: descending lexicographic tuple comparison.  On a score tie Python 2
falls back to comparing the `Move` objects themselves (they define no
ordering methods, so the interpreter's default arbitrary-but-fixed total
order on objects is used); the embedding realises that object order as the
numeric order on move codes.  `reverse=True` puts the greater tuple first. -/
def pairDescLe (a b : Option ℚ × Nat) : Bool :=
  if probKey a.1 = probKey b.1 then decide (b.2 ≤ a.2)
  else decide (probKey b.1 < probKey a.1)

/-- Embeds `ChessNet.analyze_position(board)`: encode every legal successor, evaluate
the model once over the batch, normalize `scores / np.sum(scores)`, and return
`sorted(zip(scores_dist, moves), reverse=True)`. -/
def analyze_position (E : Engine) (b : Board) : List (Option ℚ × Nat) :=
  let moves := E.legal_moves b
  let scores := analyzeScores E b
  let scores_dist := scores.map (fun s => safeDiv s scores.sum)
  (scores_dist.zip moves).mergeSort pairDescLe

/-- Embeds `ChessNet.select_move(board, stochastic)`.  The stochastic branch draws
`np.argmax(np.random.multinomial(1, probs))` - the ambient random source is
embedded as the function `rng` from the probability list to the drawn index.
The non-stochastic branch returns `scores[0][1]`; indexing an empty list
raises, hence `Option`. -/
def select_move (E : Engine) (b : Board) (stochastic : Bool)
    (rng : List (Option ℚ) → Nat) : Option Nat :=
  let scores := analyze_position E b
  if stochastic then
    (scores.get? (rng (scores.map Prod.fst))).map Prod.snd
  else
    scores.head?.map Prod.snd

/-- Refinement of the sort order for cross-call claims.  Python 2 breaks
score ties by comparing the freshly allocated `Move` objects, so the tie
order is a property of the interpreter's allocation state, not of the board
or the model.  `addr` assigns each move code the address of the object
allocated for it in ONE call of `list(board.legal_moves)`; a second call
allocates fresh objects and so carries its own, possibly different, `addr`.
`pairDescLe` is the instance `addr = id`. -/
def pairDescLeAddr (addr : Nat → Nat) (a b : Option ℚ × Nat) : Bool :=
  pairDescLe (a.1, addr a.2) (b.1, addr b.2)

/-- Embeds `zip(scores_dist, moves)` of `analyze_position` before the sort:
the scored legal moves of the position. -/
def scoredMoves (E : Engine) (b : Board) : List (Option ℚ × Nat) :=
  ((analyzeScores E b).map
    (fun s => safeDiv s (analyzeScores E b).sum)).zip (E.legal_moves b)

/-- Embeds `ChessNet.analyze_position` with the allocation order of the
call's `Move` objects made explicit. -/
def analyze_position_addr (E : Engine) (addr : Nat → Nat) (b : Board) :
    List (Option ℚ × Nat) :=
  (scoredMoves E b).mergeSort (pairDescLeAddr addr)

/-- Embeds `ChessNet.select_move` over the allocation-explicit analysis. -/
def select_move_addr (E : Engine) (addr : Nat → Nat) (b : Board)
    (stochastic : Bool) (rng : List (Option ℚ) → Nat) : Option Nat :=
  let scores := analyze_position_addr E addr b
  if stochastic then
    (scores.get? (rng (scores.map Prod.fst))).map Prod.snd
  else
    scores.head?.map Prod.snd

/-! Concrete shards and engines used to instantiate the theorems. -/

/-- A shard of 10 samples. -/
def shard10 : Npz := ⟨List.range 10, List.range 10, List.range 10⟩

/-- A shard of 15 samples. -/
def shard15 : Npz := ⟨List.range 15, List.range 15, List.range 15⟩

/-- An engine whose boards have a single legal move (move 7), with a
constant-score model. -/
def engOne : Engine :=
  { legal_moves := fun _ => [7]
    push := fun b m => m :: b
    pop := List.tail
    board_to_tensor := fun b => (b.sum, b.length)
    predict := fun l => l.map (fun _ => (1 : ℚ)) }

/-- An engine with two legal moves whose model scores them equally. -/
def engTie : Engine :=
  { legal_moves := fun _ => [0, 1]
    push := fun b m => m :: b
    pop := List.tail
    board_to_tensor := fun b => (b.sum, b.length)
    predict := fun l => l.map (fun _ => (1 : ℚ)) }

/-- An engine with two legal moves whose model outputs all-zero scores. -/
def engZero : Engine :=
  { legal_moves := fun _ => [0, 1]
    push := fun b m => m :: b
    pop := List.tail
    board_to_tensor := fun b => (b.sum, b.length)
    predict := fun l => l.map (fun _ => (0 : ℚ)) }

/-- An engine whose boards are terminal: no legal moves. -/
def engTerminal : Engine :=
  { legal_moves := fun _ => []
    push := fun b m => m :: b
    pop := List.tail
    board_to_tensor := fun b => (b.sum, b.length)
    predict := fun l => l.map (fun _ => (1 : ℚ)) }

/-! Helper lemmas. -/

lemma foldl_add_eq_sum (g : Npz → Nat) :
    ∀ (l : List Npz) (a : Nat),
      l.foldl (fun acc f => acc + g f) a = a + (l.map g).sum := by
  intro l
  induction l with
  | nil => intro a; simp
  | cons f t ih =>
    intro a
    simp [List.foldl_cons, ih, Nat.add_assoc]

lemma n_batches_eq_sum (files : List Npz) (bs : Nat) :
    n_batches files bs = (files.map (fun f => f.board_tensors.length / bs)).sum := by
  simpa using foldl_add_eq_sum (fun f => f.board_tensors.length / bs) files 0

lemma shardBatches_length (f : Npz) (bs : Nat) :
    (shardBatches f bs).length = f.board_tensors.length / bs := by
  simp [shardBatches]

lemma epochBatches_length (files : List Npz) (bs : Nat) :
    (epochBatches files bs).length = n_batches files bs := by
  rw [n_batches_eq_sum]
  simp [epochBatches, Function.comp_def, shardBatches_length]

/-! Claim theorems. -/

/-- C2: for every directory of shards and positive batch size, the count
computed on construction is `Σ (count_i / batch_size)` and
`samples_per_epoch` is `batch_size * total_minibatches`. -/
theorem C2_loader_counts (files : List Npz) (batch_size : Nat)
    (hbs : 0 < batch_size) :
    n_batches files batch_size
        = (files.map (fun f => f.board_tensors.length / batch_size)).sum
      ∧ samples_per_epoch files batch_size
        = batch_size * n_batches files batch_size := by
  exact ⟨n_batches_eq_sum files batch_size, rfl⟩

theorem C2_loader_counts_witness :
    n_batches [shard10, shard15] 4
        = ([shard10, shard15].map (fun f => f.board_tensors.length / 4)).sum
      ∧ samples_per_epoch [shard10, shard15] 4
        = 4 * n_batches [shard10, shard15] 4 :=
  C2_loader_counts [shard10, shard15] 4 (by decide)

/-- C10: when every shard is smaller than the batch size (in particular when
there are no shards), the minibatch count and `samples_per_epoch` are zero and
the generator never yields a batch: it is a non-productive infinite loop, not
a terminating or erroring call. -/
theorem C10_empty_epoch (files : List Npz) (batch_size : Nat)
    (hbs : 0 < batch_size)
    (hsmall : ∀ f ∈ files, f.board_tensors.length < batch_size) :
    n_batches files batch_size = 0
      ∧ samples_per_epoch files batch_size = 0
      ∧ ∀ n, generate_samples files batch_size n = none := by
  have hnb : n_batches files batch_size = 0 := by
    rw [n_batches_eq_sum]
    rw [List.sum_eq_zero]
    intro x hx
    obtain ⟨f, hf, rfl⟩ := List.mem_map.mp hx
    exact Nat.div_eq_of_lt (hsmall f hf)
  have hlen : (epochBatches files batch_size).length = 0 :=
    (epochBatches_length files batch_size).trans hnb
  have hnil : epochBatches files batch_size = [] := List.length_eq_zero.mp hlen
  refine ⟨hnb, ?_, ?_⟩
  · simp [samples_per_epoch, hnb]
  · intro n
    simp [generate_samples, hnil]

theorem C10_empty_epoch_witness :
    n_batches [⟨[0, 1], [0, 1], [0, 1]⟩] 4 = 0
      ∧ samples_per_epoch [⟨[0, 1], [0, 1], [0, 1]⟩] 4 = 0
      ∧ ∀ n, generate_samples [⟨[0, 1], [0, 1], [0, 1]⟩] 4 n = none :=
  C10_empty_epoch [⟨[0, 1], [0, 1], [0, 1]⟩] 4 (by decide) (by decide)

lemma shardBatches_get (f : Npz) (bs j : Nat) (hj : j < f.board_tensors.length / bs) :
    (shardBatches f bs).get? j
      = some { boards := (f.board_tensors.drop (j * bs)).take bs
               extras := (f.extra_tensors.drop (j * bs)).take bs
               targets := (f.target_tensors.drop (j * bs)).take bs } := by
  rw [shardBatches, List.get?_eq_getElem?, List.getElem?_map, List.getElem?_range hj]
  rfl

lemma slice_length_of_lt_div {l : List Nat} {bs j : Nat} (hbs : 0 < bs)
    (hj : j < l.length / bs) : ((l.drop (j * bs)).take bs).length = bs := by
  have h1 : (j + 1) * bs ≤ (l.length / bs) * bs :=
    Nat.mul_le_mul_right bs hj
  have h2 : (l.length / bs) * bs ≤ l.length := Nat.div_mul_le_self _ _
  rw [Nat.succ_mul] at h1
  simp only [List.length_take, List.length_drop]
  omega

/-- C3: the stream visits shards in the fixed file order, yields from each
shard exactly `count / batch_size` batches, each a `batch_size`-long slice of
that shard alone (the remainder is dropped, never carried across shards), and
after the last shard restarts from the first: the stream is infinite and
periodic with period `total_minibatches`; with shards of 10 and 15 samples
and batch size 4, the sixth batch equals the first batch of shard 1. -/
theorem C3_stream_cyclic (files : List Npz) (batch_size : Nat)
    (hbs : 0 < batch_size)
    (hpar : ∀ f ∈ files, f.extra_tensors.length = f.board_tensors.length
        ∧ f.target_tensors.length = f.board_tensors.length) :
    (epochBatches files batch_size).length = n_batches files batch_size
      ∧ (∀ f ∈ files,
          (shardBatches f batch_size).length = f.board_tensors.length / batch_size
          ∧ ∀ j, j < f.board_tensors.length / batch_size →
              (shardBatches f batch_size).get? j
                = some { boards := (f.board_tensors.drop (j * batch_size)).take batch_size
                         extras := (f.extra_tensors.drop (j * batch_size)).take batch_size
                         targets := (f.target_tensors.drop (j * batch_size)).take batch_size }
              ∧ ((f.board_tensors.drop (j * batch_size)).take batch_size).length = batch_size
              ∧ ((f.extra_tensors.drop (j * batch_size)).take batch_size).length = batch_size
              ∧ ((f.target_tensors.drop (j * batch_size)).take batch_size).length = batch_size)
      ∧ (n_batches files batch_size ≠ 0 →
          ∀ n, ∃ bt, generate_samples files batch_size n = some bt)
      ∧ (∀ n, generate_samples files batch_size (n + n_batches files batch_size)
            = generate_samples files batch_size n)
      ∧ n_batches [shard10, shard15] 4 = 5
      ∧ generate_samples [shard10, shard15] 4 5 = generate_samples [shard10, shard15] 4 0
      ∧ generate_samples [shard10, shard15] 4 0
          = some { boards := (List.range 10).take 4
                   extras := (List.range 10).take 4
                   targets := (List.range 10).take 4 } := by
  refine ⟨epochBatches_length files batch_size, ?_, ?_, ?_, by decide, by decide, by decide⟩
  · intro f hf
    refine ⟨shardBatches_length f batch_size, ?_⟩
    intro j hj
    refine ⟨shardBatches_get f batch_size j hj, ?_, ?_, ?_⟩
    · exact slice_length_of_lt_div hbs hj
    · have := (hpar f hf).1
      have hj2 : j < f.extra_tensors.length / batch_size := by rw [this]; exact hj
      exact slice_length_of_lt_div hbs hj2
    · have := (hpar f hf).2
      have hj2 : j < f.target_tensors.length / batch_size := by rw [this]; exact hj
      exact slice_length_of_lt_div hbs hj2
  · intro hT n
    have hlen : (epochBatches files batch_size).length = n_batches files batch_size :=
      epochBatches_length files batch_size
    have hpos : 0 < (epochBatches files batch_size).length := by
      rw [hlen]; exact Nat.pos_of_ne_zero hT
    have hmod : n % (epochBatches files batch_size).length
        < (epochBatches files batch_size).length := Nat.mod_lt n hpos
    exact ⟨_, List.get?_eq_get hmod⟩
  · intro n
    by_cases hT : n_batches files batch_size = 0
    · simp [hT]
    · have hlen : (epochBatches files batch_size).length = n_batches files batch_size :=
        epochBatches_length files batch_size
      unfold generate_samples
      rw [hlen, Nat.add_mod_right]

theorem C3_stream_cyclic_witness :
    (epochBatches [shard10, shard15] 4).length = n_batches [shard10, shard15] 4
      ∧ (∀ f ∈ [shard10, shard15],
          (shardBatches f 4).length = f.board_tensors.length / 4
          ∧ ∀ j, j < f.board_tensors.length / 4 →
              (shardBatches f 4).get? j
                = some { boards := (f.board_tensors.drop (j * 4)).take 4
                         extras := (f.extra_tensors.drop (j * 4)).take 4
                         targets := (f.target_tensors.drop (j * 4)).take 4 }
              ∧ ((f.board_tensors.drop (j * 4)).take 4).length = 4
              ∧ ((f.extra_tensors.drop (j * 4)).take 4).length = 4
              ∧ ((f.target_tensors.drop (j * 4)).take 4).length = 4)
      ∧ (n_batches [shard10, shard15] 4 ≠ 0 →
          ∀ n, ∃ bt, generate_samples [shard10, shard15] 4 n = some bt)
      ∧ (∀ n, generate_samples [shard10, shard15] 4 (n + n_batches [shard10, shard15] 4)
            = generate_samples [shard10, shard15] 4 n)
      ∧ n_batches [shard10, shard15] 4 = 5
      ∧ generate_samples [shard10, shard15] 4 5 = generate_samples [shard10, shard15] 4 0
      ∧ generate_samples [shard10, shard15] 4 0
          = some { boards := (List.range 10).take 4
                   extras := (List.range 10).take 4
                   targets := (List.range 10).take 4 } :=
  C3_stream_cyclic [shard10, shard15] 4 (by decide) (by decide)

lemma rel_acc_aux (k : Nat) :
    ∀ y_pred : List ℚ, y_pred.length = 2 * k →
      chunkPairs (List.zipWith (fun t p => p * (2 * t - 1))
          ((List.replicate k ([0, 1] : List ℚ)).flatten) y_pred)
        = (chunkPairs y_pred).map (fun q => (-q.1, q.2))
      ∧ (chunkPairs y_pred).length = k := by
  induction k with
  | zero =>
    intro y_pred h
    have hnil : y_pred = [] := List.length_eq_zero.mp (by omega)
    subst hnil
    simp [chunkPairs]
  | succ k ih =>
    intro y_pred h
    match y_pred, h with
    | p0 :: p1 :: rest, h =>
      have hr : rest.length = 2 * k := by
        simp only [List.length_cons] at h; omega
      obtain ⟨ih1, ih2⟩ := ih rest hr
      constructor
      · simp only [List.replicate_succ, List.flatten_cons, List.cons_append,
          List.nil_append, List.zipWith_cons_cons, chunkPairs, List.map_cons,
          ih1, List.cons.injEq, Prod.mk.injEq]
        exact ⟨⟨by ring, by ring⟩, by simpa using ih1⟩
      · simpa [chunkPairs] using ih2

/-- C4: when the labels are the alternating (0, 1) pattern of adjacent
(negative, positive) pairs, `rel_acc` is exactly the fraction of pairs whose
positive-sample prediction strictly exceeds the adjacent negative-sample
prediction. -/
theorem C4_rel_acc_pairwise (k : Nat) (y_true y_pred : List ℚ)
    (hk : 0 < k)
    (ht : y_true = (List.replicate k ([0, 1] : List ℚ)).flatten)
    (hp : y_pred.length = 2 * k) :
    rel_acc y_true y_pred
      = (((chunkPairs y_pred).countP (fun q => q.1 < q.2) : ℚ)) / (k : ℚ) := by
  subst ht
  obtain ⟨he, hl⟩ := rel_acc_aux k y_pred hp
  simp only [rel_acc]
  rw [he, List.map_map]
  have hcount : ((chunkPairs y_pred).map ((fun q : ℚ × ℚ => q.1 + q.2)
        ∘ fun q : ℚ × ℚ => (-q.1, q.2))).countP (fun s => 0 < s)
      = (chunkPairs y_pred).countP (fun q => q.1 < q.2) := by
    rw [List.countP_map]
    refine List.countP_congr ?_
    intro q _
    have hiff : (0 < -q.1 + q.2) ↔ (q.1 < q.2) := by
      constructor
      · intro h0; linarith
      · intro h0; linarith
    simp [Function.comp_apply, hiff]
  rw [hcount]
  simp [hl]

theorem C4_rel_acc_pairwise_witness :
    rel_acc [0, 1, 0, 1] [1, 2, 5, 3]
      = (((chunkPairs [(1 : ℚ), 2, 5, 3]).countP (fun q => q.1 < q.2) : ℚ)) / (2 : ℚ) := by
  have h := C4_rel_acc_pairwise 2 [0, 1, 0, 1] [1, 2, 5, 3]
    (by decide) (by decide) (by decide)
  simpa using h

lemma encodeLoop_length (E : Engine) :
    ∀ (b : Board) (ms : List Nat), (encodeLoop E b ms).1.length = ms.length := by
  intro b ms
  induction ms generalizing b with
  | nil => rfl
  | cons m t ih => simp [encodeLoop, ih]

lemma analyzeScores_length (E : Engine) (b : Board)
    (hlen : ∀ l, (E.predict l).length = l.length) :
    (analyzeScores E b).length = (E.legal_moves b).length := by
  rw [analyzeScores, hlen, encodeLoop_length]

lemma pairDescLe_iff (a b : Option ℚ × Nat) :
    pairDescLe a b = true ↔
      (probKey b.1 < probKey a.1 ∨ (probKey a.1 = probKey b.1 ∧ b.2 ≤ a.2)) := by
  unfold pairDescLe
  split_ifs with h
  · simp [h, lt_irrefl]
  · simp [h]

lemma pairDescLe_trans :
    ∀ a b c : Option ℚ × Nat, pairDescLe a b = true → pairDescLe b c = true →
      pairDescLe a c = true := by
  intro a b c h1 h2
  rw [pairDescLe_iff] at *
  rcases h1 with h1 | ⟨h1e, h1m⟩
  · rcases h2 with h2 | ⟨h2e, h2m⟩
    · exact Or.inl (lt_trans h2 h1)
    · exact Or.inl (h2e ▸ h1)
  · rcases h2 with h2 | ⟨h2e, h2m⟩
    · exact Or.inl (lt_of_lt_of_eq h2 h1e.symm)
    · exact Or.inr ⟨h1e.trans h2e, le_trans h2m h1m⟩

lemma pairDescLe_total :
    ∀ a b : Option ℚ × Nat, (pairDescLe a b || pairDescLe b a) = true := by
  intro a b
  rcases lt_trichotomy (probKey a.1) (probKey b.1) with h | h | h
  · have : pairDescLe b a = true := (pairDescLe_iff b a).mpr (Or.inl h)
    simp [this]
  · rcases Nat.le_total b.2 a.2 with hm | hm
    · have : pairDescLe a b = true := (pairDescLe_iff a b).mpr (Or.inr ⟨h, hm⟩)
      simp [this]
    · have : pairDescLe b a = true := (pairDescLe_iff b a).mpr (Or.inr ⟨h.symm, hm⟩)
      simp [this]
  · have : pairDescLe a b = true := (pairDescLe_iff a b).mpr (Or.inl h)
    simp [this]

lemma sum_map_div (l : List ℚ) (c : ℚ) :
    (l.map (fun x => x / c)).sum = l.sum / c := by
  induction l with
  | nil => simp
  | cons a t ih => simp [ih, add_div]

lemma analyze_position_eq (E : Engine) (b : Board) :
    analyze_position E b
      = (((analyzeScores E b).map
            (fun s => safeDiv s (analyzeScores E b).sum)).zip
          (E.legal_moves b)).mergeSort pairDescLe := rfl

lemma analyze_basic (E : Engine) (b : Board)
    (hlen : ∀ l, (E.predict l).length = l.length) :
    (analyze_position E b).length = (E.legal_moves b).length
      ∧ ((analyze_position E b).map Prod.snd).Perm (E.legal_moves b)
      ∧ ((analyze_position E b).map Prod.fst).Perm
          ((analyzeScores E b).map (fun s => safeDiv s (analyzeScores E b).sum)) := by
  have hsl : (analyzeScores E b).length = (E.legal_moves b).length :=
    analyzeScores_length E b hlen
  have hdl : ((analyzeScores E b).map
      (fun s => safeDiv s (analyzeScores E b).sum)).length
      = (E.legal_moves b).length := by simp [hsl]
  have hperm := List.mergeSort_perm
    (((analyzeScores E b).map
        (fun s => safeDiv s (analyzeScores E b).sum)).zip (E.legal_moves b))
    pairDescLe
  rw [← analyze_position_eq] at hperm
  refine ⟨?_, ?_, ?_⟩
  · rw [hperm.length_eq, List.length_zip, hdl]
    exact min_self _
  · exact (hperm.map Prod.snd).trans (by rw [List.map_snd_zip _ _ hdl.ge])
  · exact (hperm.map Prod.fst).trans (by rw [List.map_fst_zip _ _ hdl.le])

lemma analyze_sorted (E : Engine) (b : Board) :
    List.Pairwise (fun x y => pairDescLe x y = true) (analyze_position E b) :=
  List.sorted_mergeSort pairDescLe_trans pairDescLe_total _

lemma chain'_desc_of_sorted :
    ∀ l : List (Option ℚ × Nat), List.Chain' (fun x y => pairDescLe x y = true) l →
      (∀ x ∈ l, x.1.isSome) →
      List.Chain' (fun x y => ∃ p q, x.1 = some p ∧ y.1 = some q ∧ q ≤ p) l := by
  intro l
  induction l with
  | nil => intro _ _; simp
  | cons a t ih =>
    intro hc hs
    rcases t with _ | ⟨c, t2⟩
    · simp
    · rw [List.chain'_cons] at hc ⊢
      obtain ⟨hab, hrest⟩ := hc
      refine ⟨?_, ih hrest (fun x hx => hs x (List.mem_cons_of_mem a hx))⟩
      obtain ⟨p, hp⟩ := Option.isSome_iff_exists.mp (hs a (by simp))
      obtain ⟨q, hq⟩ := Option.isSome_iff_exists.mp (hs c (by simp))
      refine ⟨p, q, hp, hq, ?_⟩
      rw [pairDescLe_iff] at hab
      rcases hab with h | ⟨he, _⟩
      · rw [hp, hq] at h
        simp only [probKey] at h
        exact le_of_lt (by exact_mod_cast h)
      · rw [hp, hq] at he
        simp only [probKey] at he
        have hpq : p = q := by exact_mod_cast he
        exact le_of_eq hpq.symm

lemma filterMap_id_map_some (l : List ℚ) (f : ℚ → ℚ) :
    ((l.map (fun s => some (f s))).filterMap id).sum = (l.map f).sum := by
  induction l with
  | nil => rfl
  | cons a t ih =>
    simp only [List.map_cons, List.filterMap_cons, id_eq, List.sum_cons, ih]

lemma safeDiv_pos_sum (scores : List ℚ) (hS : scores.sum ≠ 0) :
    scores.map (fun s => safeDiv s scores.sum)
      = scores.map (fun s => some (s / scores.sum)) := by
  refine List.map_congr_left ?_
  intro s _
  simp [safeDiv, hS]

/-- C1: with a non-empty legal-move list and a positive score sum,
`analyze_position` returns one entry per legal move (covering exactly the
legal moves), the probabilities are all valid and sum to 1, the list is
sorted non-increasingly by probability, and a single legal move receives
probability 1. -/
theorem C1_analyze_distribution (E : Engine) (b : Board)
    (hlen : ∀ l, (E.predict l).length = l.length)
    (hne : E.legal_moves b ≠ [])
    (hsum : 0 < (analyzeScores E b).sum) :
    (analyze_position E b).length = (E.legal_moves b).length
      ∧ ((analyze_position E b).map Prod.snd).Perm (E.legal_moves b)
      ∧ (∀ x ∈ analyze_position E b, x.1.isSome)
      ∧ (((analyze_position E b).map Prod.fst).filterMap id).sum = 1
      ∧ List.Chain' (fun x y => ∃ p q, x.1 = some p ∧ y.1 = some q ∧ q ≤ p)
          (analyze_position E b)
      ∧ ∀ m, E.legal_moves b = [m] → analyze_position E b = [(some 1, m)] := by
  have hS : (analyzeScores E b).sum ≠ 0 := ne_of_gt hsum
  obtain ⟨hL, hsnd, hfst⟩ := analyze_basic E b hlen
  have hfst2 : ((analyze_position E b).map Prod.fst).Perm
      ((analyzeScores E b).map (fun s => some (s / (analyzeScores E b).sum))) := by
    rw [← safeDiv_pos_sum _ hS]; exact hfst
  have hsome : ∀ x ∈ analyze_position E b, x.1.isSome := by
    intro x hx
    have hmem : x.1 ∈ (analyze_position E b).map Prod.fst := List.mem_map_of_mem _ hx
    have hmem2 := hfst2.subset hmem
    obtain ⟨s, _, hsx⟩ := List.mem_map.mp hmem2
    rw [← hsx]; rfl
  refine ⟨hL, hsnd, hsome, ?_, ?_, ?_⟩
  · have hpf := (hfst2.filterMap id).sum_eq
    rw [hpf, filterMap_id_map_some, sum_map_div, div_self hS]
  · exact chain'_desc_of_sorted _ (analyze_sorted E b).chain' hsome
  · intro m hm
    have hs1 : (analyzeScores E b).length = 1 := by
      rw [analyzeScores_length E b hlen, hm]; rfl
    obtain ⟨s, hs⟩ := List.length_eq_one.mp hs1
    have hSs : (analyzeScores E b).sum = s := by rw [hs]; simp
    have hsne : s ≠ 0 := by rw [hSs] at hS; exact hS
    rw [analyze_position_eq, hSs, hs, hm]
    simp [safeDiv, hsne, div_self hsne, List.mergeSort_singleton]

theorem C1_analyze_distribution_witness :
    (analyze_position engOne []).length = (engOne.legal_moves []).length
      ∧ ((analyze_position engOne []).map Prod.snd).Perm (engOne.legal_moves [])
      ∧ (∀ x ∈ analyze_position engOne [], x.1.isSome)
      ∧ (((analyze_position engOne []).map Prod.fst).filterMap id).sum = 1
      ∧ List.Chain' (fun x y => ∃ p q, x.1 = some p ∧ y.1 = some q ∧ q ≤ p)
          (analyze_position engOne [])
      ∧ ∀ m, engOne.legal_moves [] = [m] → analyze_position engOne [] = [(some 1, m)] :=
  C1_analyze_distribution engOne []
    (fun l => by simp [engOne]) (by decide)
    (by
      have h : analyzeScores engOne [] = [1] := rfl
      rw [h]
      norm_num)

lemma mergeSort_pair {α : Type} (le : α → α → Bool) (a b : α) :
    [a, b].mergeSort le = if le a b then [a, b] else [b, a] := by
  rw [List.mergeSort]
  simp [List.merge]

lemma analyze_isSome (E : Engine) (b : Board)
    (hlen : ∀ l, (E.predict l).length = l.length)
    (hS : (analyzeScores E b).sum ≠ 0) :
    ∀ x ∈ analyze_position E b, x.1.isSome := by
  obtain ⟨_, _, hfst⟩ := analyze_basic E b hlen
  have hfst2 : ((analyze_position E b).map Prod.fst).Perm
      ((analyzeScores E b).map (fun s => some (s / (analyzeScores E b).sum))) := by
    rw [← safeDiv_pos_sum _ hS]; exact hfst
  intro x hx
  have hmem : x.1 ∈ (analyze_position E b).map Prod.fst := List.mem_map_of_mem _ hx
  obtain ⟨s, _, hsx⟩ := List.mem_map.mp (hfst2.subset hmem)
  rw [← hsx]; rfl

/-- C5 counterexample: with an all-zero score model over two legal moves the
score sum is zero, yet `analyze_position` raises no error: it returns a
full-length list covering the legal moves whose probability entries are the
invalid results of the zero division. -/
theorem C5_counterexample :
    engZero.legal_moves [] ≠ []
      ∧ (analyzeScores engZero []).sum = 0
      ∧ analyze_position engZero [] = [(none, 1), (none, 0)]
      ∧ (analyze_position engZero []).length = (engZero.legal_moves []).length := by
  have hs : analyzeScores engZero [] = [0, 0] := rfl
  have hsum : (analyzeScores engZero []).sum = 0 := by rw [hs]; norm_num
  have hres : analyze_position engZero [] = [(none, 1), (none, 0)] := by
    rw [analyze_position_eq, hsum, hs]
    have hlm : engZero.legal_moves [] = [0, 1] := rfl
    rw [hlm]
    norm_num [safeDiv, List.zip, mergeSort_pair, pairDescLe, probKey]
  exact ⟨by decide, hsum, hres, by rw [hres]; rfl⟩

/-- C5 (amended): when the model's scores sum to zero, `analyze_position`
does not fail with a reported error: it still returns one entry per legal
move, covering exactly the legal moves, with every probability entry invalid
(the NaN/infinity of the float division, `none` here); the degenerate
distribution propagates silently to the caller. -/
theorem C5_zero_sum_returns (E : Engine) (b : Board)
    (hlen : ∀ l, (E.predict l).length = l.length)
    (hsum : (analyzeScores E b).sum = 0) :
    (analyze_position E b).length = (E.legal_moves b).length
      ∧ ((analyze_position E b).map Prod.snd).Perm (E.legal_moves b)
      ∧ ∀ x ∈ analyze_position E b, x.1 = none := by
  obtain ⟨hL, hsnd, hfst⟩ := analyze_basic E b hlen
  refine ⟨hL, hsnd, ?_⟩
  intro x hx
  have hmem : x.1 ∈ (analyze_position E b).map Prod.fst := List.mem_map_of_mem _ hx
  obtain ⟨s, _, hsx⟩ := List.mem_map.mp (hfst.subset hmem)
  rw [← hsx, hsum]
  simp [safeDiv]

theorem C5_zero_sum_returns_witness :
    (analyze_position engZero []).length = (engZero.legal_moves []).length
      ∧ ((analyze_position engZero []).map Prod.snd).Perm (engZero.legal_moves [])
      ∧ ∀ x ∈ analyze_position engZero [], x.1 = none :=
  C5_zero_sum_returns engZero [] (fun l => by simp [engZero])
    (by
      have hs : analyzeScores engZero [] = [0, 0] := rfl
      rw [hs]; norm_num)

/-- C9: on a terminal board (empty legal-move list) the move list and score
array are empty and the normalizing sum is zero - the degenerate branch of
the embedded division; `analyze_position` returns no probability
distribution: its result is the empty list, so callers must not consult it
for a move. -/
theorem C9_terminal_empty (E : Engine) (b : Board)
    (hlen : ∀ l, (E.predict l).length = l.length)
    (hterm : E.legal_moves b = []) :
    analyzeScores E b = []
      ∧ (analyzeScores E b).sum = 0
      ∧ analyze_position E b = [] := by
  have h0 : (analyzeScores E b).length = 0 := by
    rw [analyzeScores_length E b hlen, hterm]; rfl
  have hnil : analyzeScores E b = [] := List.length_eq_zero.mp h0
  refine ⟨hnil, by rw [hnil]; rfl, ?_⟩
  rw [analyze_position_eq, hnil, hterm]
  simp

theorem C9_terminal_empty_witness :
    analyzeScores engTerminal [] = []
      ∧ (analyzeScores engTerminal []).sum = 0
      ∧ analyze_position engTerminal [] = [] :=
  C9_terminal_empty engTerminal [] (fun l => by simp [engTerminal]) rfl

/-- C6 counterexample: two legal moves tie at probability 1/2; enumeration
order lists move 0 first, but `select_move(board, stochastic=False)` returns
move 1: the tie is broken by the reversed tuple comparison of the sort, not
by enumeration order. -/
theorem C6_counterexample :
    engTie.legal_moves [] = [0, 1]
      ∧ analyze_position engTie [] = [(some (1 / 2), 1), (some (1 / 2), 0)]
      ∧ select_move engTie [] false (fun _ => 0) = some 1
      ∧ select_move engTie [] false (fun _ => 0) ≠ some 0 := by
  have hs : analyzeScores engTie [] = [1, 1] := rfl
  have hsum : (analyzeScores engTie []).sum = 2 := by rw [hs]; norm_num
  have hres : analyze_position engTie [] = [(some (1 / 2), 1), (some (1 / 2), 0)] := by
    rw [analyze_position_eq, hsum, hs]
    have hlm : engTie.legal_moves [] = [0, 1] := rfl
    rw [hlm]
    norm_num [safeDiv, List.zip, mergeSort_pair, pairDescLe, probKey]
  refine ⟨rfl, hres, ?_, ?_⟩
  · simp [select_move, hres]
  · simp [select_move, hres]

/-- C6 (amended): the non-stochastic `select_move` returns the head of the
sorted list - a move holding the maximal probability - but among moves tying
for the maximal probability it returns the one greatest in the move-object
comparison order used by the sort, not the tied move that comes first in the
legal-move enumeration. -/
theorem C6_select_argmax (E : Engine) (b : Board) (rng : List (Option ℚ) → Nat)
    (hlen : ∀ l, (E.predict l).length = l.length)
    (hne : E.legal_moves b ≠ [])
    (hsum : 0 < (analyzeScores E b).sum) :
    ∃ p m, (analyze_position E b).head? = some (some p, m)
      ∧ select_move E b false rng = some m
      ∧ m ∈ E.legal_moves b
      ∧ (∀ x ∈ analyze_position E b, ∃ q, x.1 = some q ∧ q ≤ p)
      ∧ (∀ x ∈ analyze_position E b, x.1 = some p → x.2 ≤ m) := by
  have hS : (analyzeScores E b).sum ≠ 0 := ne_of_gt hsum
  obtain ⟨hL, hsnd, _⟩ := analyze_basic E b hlen
  have hsome := analyze_isSome E b hlen hS
  have hpos : (analyze_position E b) ≠ [] := by
    intro hnil
    rw [hnil] at hL
    exact hne (List.length_eq_zero.mp hL.symm)
  obtain ⟨hd, tl, hcons⟩ := List.exists_cons_of_ne_nil hpos
  obtain ⟨p, hp⟩ := Option.isSome_iff_exists.mp
    (hsome hd (by rw [hcons]; exact List.mem_cons_self _ _))
  have hhd : hd = (some p, hd.2) := Prod.ext hp rfl
  refine ⟨p, hd.2, ?_, ?_, ?_, ?_, ?_⟩
  · rw [hcons, List.head?_cons]
    exact congrArg some hhd
  · simp [select_move, hcons]
  · have : hd.2 ∈ (analyze_position E b).map Prod.snd := by
      rw [hcons]; exact List.mem_map_of_mem _ (List.mem_cons_self _ _)
    exact hsnd.subset this
  · intro x hx
    obtain ⟨q, hq⟩ := Option.isSome_iff_exists.mp (hsome x hx)
    refine ⟨q, hq, ?_⟩
    rw [hcons] at hx
    rcases List.mem_cons.mp hx with rfl | hxtl
    · rw [hp] at hq
      exact le_of_eq (Option.some.inj hq).symm
    · have hpw := analyze_sorted E b
      rw [hcons, List.pairwise_cons] at hpw
      have hle := hpw.1 x hxtl
      rw [pairDescLe_iff] at hle
      rcases hle with h | ⟨he, _⟩
      · rw [hp, hq] at h
        simp only [probKey] at h
        exact le_of_lt (by exact_mod_cast h)
      · rw [hp, hq] at he
        simp only [probKey] at he
        exact le_of_eq (by exact_mod_cast he.symm)
  · intro x hx hxp
    rw [hcons] at hx
    rcases List.mem_cons.mp hx with rfl | hxtl
    · exact le_refl _
    · have hpw := analyze_sorted E b
      rw [hcons, List.pairwise_cons] at hpw
      have hle := hpw.1 x hxtl
      rw [pairDescLe_iff] at hle
      rcases hle with h | ⟨he, hm⟩
      · rw [hp, hxp] at h
        simp only [probKey] at h
        exact absurd (by exact_mod_cast h) (lt_irrefl p)
      · exact hm

theorem C6_select_argmax_witness :
    ∃ p m, (analyze_position engTie []).head? = some (some p, m)
      ∧ select_move engTie [] false (fun _ => 0) = some m
      ∧ m ∈ engTie.legal_moves []
      ∧ (∀ x ∈ analyze_position engTie [], ∃ q, x.1 = some q ∧ q ≤ p)
      ∧ (∀ x ∈ analyze_position engTie [], x.1 = some p → x.2 ≤ m) :=
  C6_select_argmax engTie [] (fun _ => 0) (fun l => by simp [engTie]) (by decide)
    (by
      have hs : analyzeScores engTie [] = [1, 1] := rfl
      rw [hs]; norm_num)

lemma analyze_position_addr_id (E : Engine) (b : Board) :
    analyze_position_addr E (fun m => m) b = analyze_position E b := rfl

lemma pairDescLeAddr_trans (addr : Nat → Nat) :
    ∀ a b c, pairDescLeAddr addr a b = true → pairDescLeAddr addr b c = true →
      pairDescLeAddr addr a c = true :=
  fun _ _ _ h1 h2 => pairDescLe_trans _ _ _ h1 h2

lemma pairDescLeAddr_total (addr : Nat → Nat) :
    ∀ a b, (pairDescLeAddr addr a b || pairDescLeAddr addr b a) = true :=
  fun _ _ => pairDescLe_total _ _

lemma scoredMoves_length (E : Engine) (b : Board)
    (hlen : ∀ l, (E.predict l).length = l.length) :
    (scoredMoves E b).length = (E.legal_moves b).length := by
  rw [scoredMoves, List.length_zip, List.length_map, analyzeScores_length E b hlen]
  exact min_self _

lemma analyze_addr_head_max (E : Engine) (addr : Nat → Nat) (b : Board)
    (hd : Option ℚ × Nat) (tl : List (Option ℚ × Nat))
    (hcons : analyze_position_addr E addr b = hd :: tl) :
    hd ∈ scoredMoves E b ∧ ∀ z ∈ scoredMoves E b, probKey z.1 ≤ probKey hd.1 := by
  have hperm : (analyze_position_addr E addr b).Perm (scoredMoves E b) :=
    List.mergeSort_perm _ _
  have hpw : List.Pairwise (fun x y => pairDescLeAddr addr x y = true)
      (analyze_position_addr E addr b) :=
    List.sorted_mergeSort (pairDescLeAddr_trans addr) (pairDescLeAddr_total addr) _
  rw [hcons, List.pairwise_cons] at hpw
  refine ⟨hperm.subset (by rw [hcons]; exact List.mem_cons_self _ _), ?_⟩
  intro z hz
  have hz2 : z ∈ hd :: tl := by rw [← hcons]; exact hperm.symm.subset hz
  rcases List.mem_cons.mp hz2 with rfl | hztl
  · exact le_refl _
  · have hle := hpw.1 z hztl
    unfold pairDescLeAddr at hle
    rw [pairDescLe_iff] at hle
    rcases hle with h | ⟨he, _⟩
    · exact le_of_lt h
    · exact le_of_eq he.symm

/-- C7 counterexample: one board and one model queried twice, both times with
`stochastic=False`.  The two legal moves tie at probability 1/2, and the two
calls see different interpreter allocation orders for the freshly created
`Move` objects, so the first call returns move 1 and the second move 0: the
selected move is not a function of board and model alone. -/
theorem C7_counterexample :
    select_move_addr engTie (fun m => m) [] false (fun _ => 0) = some 1
      ∧ select_move_addr engTie (fun m => 1 - m) [] false (fun _ => 0) = some 0
      ∧ select_move_addr engTie (fun m => m) [] false (fun _ => 0)
          ≠ select_move_addr engTie (fun m => 1 - m) [] false (fun _ => 0) := by
  have hs : analyzeScores engTie [] = [1, 1] := rfl
  have hsum : (analyzeScores engTie []).sum = 2 := by rw [hs]; norm_num
  have hsm : scoredMoves engTie [] = [(some (1 / 2), 0), (some (1 / 2), 1)] := by
    rw [scoredMoves, hsum, hs]
    norm_num [safeDiv, engTie, List.zip]
  have h1 : select_move_addr engTie (fun m => m) [] false (fun _ => 0) = some 1 := by
    simp only [select_move_addr, analyze_position_addr, hsm, mergeSort_pair]
    norm_num [pairDescLeAddr, pairDescLe, probKey]
  have h2 : select_move_addr engTie (fun m => 1 - m) [] false (fun _ => 0) = some 0 := by
    simp only [select_move_addr, analyze_position_addr, hsm, mergeSort_pair]
    norm_num [pairDescLeAddr, pairDescLe, probKey]
  exact ⟨h1, h2, by rw [h1, h2]; decide⟩

/-- C7 (amended): the non-stochastic selection consults no random source, and
whenever the scored-move list has a unique maximal element - in particular
whenever no tie at the maximal probability occurs - two calls on the
identical board and model return the identical move, whatever the
interpreter's allocation orders of the two calls' `Move` objects and whatever
the ambient random sources; with tied maximal probabilities the tie-break
consults the allocation order, which is not a function of board and model and
may differ between the calls. -/
theorem C7_select_unique_max (E : Engine) (b : Board) (a1 a2 : Nat → Nat)
    (r1 r2 : List (Option ℚ) → Nat)
    (hlen : ∀ l, (E.predict l).length = l.length)
    (hne : E.legal_moves b ≠ [])
    (huniq : ∀ x ∈ scoredMoves E b, ∀ y ∈ scoredMoves E b,
        (∀ z ∈ scoredMoves E b, probKey z.1 ≤ probKey x.1) →
        (∀ z ∈ scoredMoves E b, probKey z.1 ≤ probKey y.1) → x = y) :
    select_move_addr E a1 b false r1 = select_move_addr E a2 b false r2 := by
  have hL1 : (analyze_position_addr E a1 b).length = (E.legal_moves b).length :=
    (List.mergeSort_perm _ _).length_eq.trans (scoredMoves_length E b hlen)
  have hL2 : (analyze_position_addr E a2 b).length = (E.legal_moves b).length :=
    (List.mergeSort_perm _ _).length_eq.trans (scoredMoves_length E b hlen)
  have hne1 : analyze_position_addr E a1 b ≠ [] := by
    intro h; rw [h] at hL1; exact hne (List.length_eq_zero.mp hL1.symm)
  have hne2 : analyze_position_addr E a2 b ≠ [] := by
    intro h; rw [h] at hL2; exact hne (List.length_eq_zero.mp hL2.symm)
  obtain ⟨hd1, tl1, hc1⟩ := List.exists_cons_of_ne_nil hne1
  obtain ⟨hd2, tl2, hc2⟩ := List.exists_cons_of_ne_nil hne2
  obtain ⟨hm1, hmax1⟩ := analyze_addr_head_max E a1 b hd1 tl1 hc1
  obtain ⟨hm2, hmax2⟩ := analyze_addr_head_max E a2 b hd2 tl2 hc2
  have heq : hd1 = hd2 := huniq hd1 hm1 hd2 hm2 hmax1 hmax2
  simp [select_move_addr, hc1, hc2, heq]

theorem C7_select_unique_max_witness :
    select_move_addr engOne (fun m => m) [] false (fun _ => 0)
      = select_move_addr engOne (fun m => m + 5) [] false (fun _ => 1) :=
  C7_select_unique_max engOne [] (fun m => m) (fun m => m + 5)
    (fun _ => 0) (fun _ => 1) (fun l => by simp [engOne]) (by decide)
    (by
      have hs : analyzeScores engOne [] = [1] := rfl
      have hsum : (analyzeScores engOne []).sum = 1 := by rw [hs]; norm_num
      have hsm : scoredMoves engOne [] = [(some 1, 7)] := by
        rw [scoredMoves, hsum, hs]
        norm_num [safeDiv, engOne, List.zip]
      intro x hx y hy _ _
      rw [hsm] at hx hy
      rw [List.mem_singleton.mp hx, List.mem_singleton.mp hy])

/-- C8: the encoding loop brackets every legal move with one push and one
pop; assuming the engine's pop exactly inverts push, the board threaded
through the loop comes back unchanged, the collected batch is exactly the
encodings of the pushed successors in move order, and the model is applied
once to that whole batch (a single `predict` call), not once per move. -/
theorem C8_push_pop_frame (E : Engine) (b : Board) (ms : List Nat)
    (hinv : ∀ s m, E.pop (E.push s m) = s) :
    (encodeLoop E b ms).2 = b
      ∧ (encodeLoop E b ms).1 = ms.map (fun m => E.board_to_tensor (E.push b m))
      ∧ analyzeScores E b
          = E.predict ((E.legal_moves b).map (fun m => E.board_to_tensor (E.push b m))) := by
  have key : ∀ (ms : List Nat) (b : Board), (encodeLoop E b ms).2 = b
      ∧ (encodeLoop E b ms).1 = ms.map (fun m => E.board_to_tensor (E.push b m)) := by
    intro ms
    induction ms with
    | nil => intro b; exact ⟨rfl, rfl⟩
    | cons m t ih =>
      intro b
      constructor
      · simp only [encodeLoop, hinv]
        exact (ih b).1
      · simp only [encodeLoop, hinv, List.map_cons]
        rw [(ih b).2]
  refine ⟨(key ms b).1, (key ms b).2, ?_⟩
  rw [analyzeScores, (key (E.legal_moves b) b).2]

theorem C8_push_pop_frame_witness :
    (encodeLoop engOne [] [3, 4]).2 = []
      ∧ (encodeLoop engOne [] [3, 4]).1
        = [3, 4].map (fun m => engOne.board_to_tensor (engOne.push [] m))
      ∧ analyzeScores engOne []
        = engOne.predict
            ((engOne.legal_moves []).map (fun m => engOne.board_to_tensor (engOne.push [] m))) :=
  C8_push_pop_frame engOne [] [3, 4] (fun s m => rfl)

end Chessnet
